import Mathlib

/-!
Shallow embedding of `src/til/CopyReducer.h` from the ohmu repository:
the `CopyScope` substitution environment, the `CopyReducer` reduction
rules, and the `LazyCopyFuture` / `LazyCopyTraversal` deferred-copy
mechanism.  C++ pointers to IR nodes are embedded as `Option SExpr`
values, basic blocks built by the `CFGBuilder` are kept in an explicit
arena (`List BBlock`) with block ids standing in for `BasicBlock*`
pointers, and arena-allocated futures are kept in a `List FutureObj`
with ids standing in for `Future*` pointers.  Collaborator classes that
live in headers outside `src/` (`ScopeFrame`, `CFGBuilder`, the TIL node
catalog) are modelled from the specification's interface description and
are marked `Modelled from the spec:` in their doc comments.
-/

namespace Ohmu

/-! ### Generic list helpers (pointer maps and growable arrays) -/

/-- Total indexed read with a default, embedding C++ vector indexing. -/
def getAt : List α → Nat → α → α
  | [], _, d => d
  | x :: _, 0, _ => x
  | _ :: xs, n+1, d => getAt xs n d

/-- In-range indexed write; out-of-range writes leave the list unchanged. -/
def setAt : List α → Nat → α → List α
  | [], _, _ => []
  | _ :: xs, 0, v => v :: xs
  | x :: xs, n+1, v => x :: setAt xs n v

/-- In-range indexed update; out-of-range updates leave the list unchanged. -/
def modifyAt (l : List α) (i : Nat) (f : α → α) : List α :=
  match l, i with
  | [], _ => []
  | x :: xs, 0 => f x :: xs
  | x :: xs, n+1 => x :: modifyAt xs n f

/-- Pad a nullable-entry map with `none` up to length `n` (no-op if long enough). -/
def padTo (l : List (Option α)) (n : Nat) : List (Option α) :=
  if n ≤ l.length then l else l ++ List.replicate (n - l.length) none

/-- Write slot `i`, first growing the map so the slot exists. -/
def setPad (l : List (Option α)) (i : Nat) (v : Option α) : List (Option α) :=
  setAt (padTo l (i+1)) i v

/-- Embedding of `std::vector::resize(n, nullptr)`. -/
def resizeL (l : List (Option α)) (n : Nat) : List (Option α) :=
  if n ≤ l.length then l.take n else l ++ List.replicate (n - l.length) none

/-! ### The term type

Modelled from the spec: the TIL node catalog lives in `TIL.h`, outside
`src/`; we embed just the node kinds the verified reduction rules
inspect or build.  A null child pointer inside a node is embedded as the
dedicated `null` node; a null `SExpr*` held by an attribute is embedded
as `none`. -/

/-- Modelled from the spec: a variable declaration's identity: its
declaration kind, name and the stable numeric index that is the
substitution key. -/
structure VarDeclData where
  kind : Nat
  name : String
  varIndex : Nat
deriving DecidableEq

/-- Modelled from the spec: the IR term type (`SExpr`), restricted to the
node kinds used by the claims.  `goto b i` is a Goto terminator to new
block `b` entering through predecessor index `i`; `future f` is the
placeholder node for pending future `f`; `phiRef b i` is a reference to
the `i`-th phi argument of new block `b`; `cfgRef g` stands for the
`g`-th control-flow graph begun by the builder. -/
inductive SExpr where
  | null
  | lit (v : Nat)
  | scalarType (id : Nat)
  | var (d : VarDeclData)
  | call (target : SExpr) (cc : Nat)
  | goto (targetBlock : Nat) (predIdx : Nat)
  | future (fid : Nat)
  | phiRef (blockId : Nat) (argIdx : Nat)
  | cfgRef (cfgId : Nat)
deriving DecidableEq

/-- Modelled from the spec: `SExpr::isValue()` — whether a node is
already a fully-evaluated value (literals and globally shared scalar
types in this fragment). -/
def SExpr.isValue : SExpr → Bool
  | .lit _ => true
  | .scalarType _ => true
  | _ => false

/-- Modelled from the spec: `Call::callingConvention()` reads the calling
convention stored on a Call node (other nodes report the default). -/
def SExpr.callingConvention : SExpr → Nat
  | .call _ cc => cc
  | _ => 0

/-- Modelled from the spec: `Call::setCallingConvention` overwrites the
calling convention stored on a Call node. -/
def SExpr.setCallingConvention : SExpr → Nat → SExpr
  | .call t _, cc => .call t cc
  | e, _ => e

/-- Embedding of `CopyAttr`: the result attribute carried up from a child
to its parent; `Exp` is a possibly-null pointer to the rewritten node. -/
structure Attr where
  Exp : Option SExpr
deriving DecidableEq

/-- The null attribute (both pointers null). -/
def nullAttr : Attr := ⟨none⟩

/-! ### Original (source-side) CFG data -/

/-- Modelled from the spec: the `instrID` of an original Phi node; an id
of 0 means the instruction was never numbered (not referenced). -/
structure OrigPhi where
  instrID : Nat
deriving DecidableEq

/-- Modelled from the spec: an original `BasicBlock` as consumed by the
copy rules: its stable `blockID`, its (nullable) phi argument list and
its predecessor count. -/
structure OrigBlock where
  blockID : Nat
  arguments : List (Option OrigPhi)
  numPredecessors : Nat
deriving DecidableEq

/-- Modelled from the spec: an original `SCFG`: its block count and its
two distinguished blocks. -/
structure OrigCFG where
  numBlocks : Nat
  entry : OrigBlock
  exitB : OrigBlock
deriving DecidableEq

/-! ### The builder (modelled from the spec, `CFGBuilder.h` is outside src/) -/

/-- Modelled from the spec: one phi placeholder being built: one value
slot per predecessor index, populated by `setPhiArgument`. -/
structure Phi where
  values : List (Option SExpr)
deriving DecidableEq

/-- Modelled from the spec: a basic block under construction: phi
arguments, the discovered predecessor edges (each the source block id,
null when the builder had no current block), the predecessor capacity it
was allocated with, its instruction list and its terminator. -/
structure BBlock where
  arguments : List Phi
  predecessors : List (Option Nat)
  predCapacity : Nat
  instrs : List SExpr
  terminator : Option SExpr
deriving DecidableEq

/-- A freshly allocated phi with no slots written yet. -/
def emptyPhi : Phi := ⟨[]⟩

/-- The all-empty block, used as the default for arena reads. -/
def emptyBlock : BBlock := ⟨[], [], 0, [], none⟩

/-- Modelled from the spec: `CFGBuilder::BuilderState` — which block the
builder is currently appending to, and whether instruction emission is
enabled. -/
structure BuilderState where
  currentBB : Option Nat
  emitInstrs : Bool
deriving DecidableEq

/-- Modelled from the spec: the `CFGBuilder`: the arena of blocks it has
allocated (ids are arena indices), its current state, how many graphs it
has begun, and the graph currently open. -/
structure CFGBuilder where
  blocks : List BBlock
  state : BuilderState
  cfgCount : Nat
  currentCfg : Option Nat
deriving DecidableEq

/-- Modelled from the spec: `newBlock(argCount, predecessorCapacity)`
allocates a fresh block with `nargs` phi arguments and the given
predecessor capacity, returning its id. -/
def CFGBuilder.newBlock (b : CFGBuilder) (nargs npreds : Nat) :
    CFGBuilder × Nat :=
  let blk : BBlock := ⟨List.replicate nargs emptyPhi, [], npreds, [], none⟩
  ({ b with blocks := b.blocks ++ [blk] }, b.blocks.length)

/-- Modelled from the spec: `BasicBlock::addPredecessor` appends an
incoming edge to block `bid` and returns the new edge's predecessor
index. -/
def CFGBuilder.addPredecessor (b : CFGBuilder) (bid : Nat)
    (pred : Option Nat) : CFGBuilder × Nat :=
  let idx := (getAt b.blocks bid emptyBlock).predecessors.length
  let bl := modifyAt b.blocks bid
    (fun blk => { blk with predecessors := blk.predecessors ++ [pred] })
  ({ b with blocks := bl }, idx)

/-- Modelled from the spec: `setPhiArgument(phi, value, predecessorIndex)`
writes `v` into the `argIdx`-th phi of block `bid` at slot `predIdx`. -/
def CFGBuilder.setPhiArgument (b : CFGBuilder) (bid argIdx predIdx : Nat)
    (v : Option SExpr) : CFGBuilder :=
  let setArg := fun (blk : BBlock) =>
    let args := modifyAt blk.arguments argIdx (fun ph => ⟨setPad ph.values predIdx v⟩)
    { blk with arguments := args }
  { b with blocks := modifyAt b.blocks bid setArg }

/-- Modelled from the spec: `endBlock(term)` closes the current block
with the given terminator and clears the current-block state.  A block
must end with exactly one terminator, so closing with a null terminator,
or closing when no block is open, is a fatal contract violation under
the fail-fast policy, embedded as an error result. -/
def CFGBuilder.endBlock (b : CFGBuilder) (term : Option SExpr) :
    Except String CFGBuilder :=
  match term, b.state.currentBB with
  | none, _ => .error "endBlock: null terminator"
  | some _, none => .error "endBlock: no current block"
  | some t, some c =>
      .ok { b with
        blocks := modifyAt b.blocks c (fun blk => { blk with terminator := some t }),
        state := { b.state with currentBB := none } }

/-- Modelled from the spec: `beginCFG` opens a fresh graph. -/
def CFGBuilder.beginCFG (b : CFGBuilder) : CFGBuilder :=
  { b with cfgCount := b.cfgCount + 1, currentCfg := some b.cfgCount }

/-- Modelled from the spec: `endCFG` closes the currently open graph. -/
def CFGBuilder.endCFG (b : CFGBuilder) : CFGBuilder :=
  { b with currentCfg := none }

/-- Modelled from the spec: `newCall` constructs a fresh Call node for
the (already rewritten, possibly null) callee with the builder's default
calling convention. -/
def newCall (e : Option SExpr) : SExpr := .call (e.getD .null) 0

/-- Modelled from the spec: `newVariable` constructs a fresh Variable
node referring to the given variable declaration. -/
def newVariable (d : VarDeclData) : SExpr := .var d

/-! ### The copy scope (`CopyScope` is in src/; `ScopeFrame` is modelled) -/

/-- Embedding of `CopyScope` together with the `ScopeFrame` maps it
inherits.  `varMap` (modelled from the spec: `ScopeFrame`'s substitution)
maps a variable index to the attribute bound for it, `none` meaning no
substitution is registered; `instrMap` (modelled from the spec: the
per-graph instruction map keyed by original instruction id) resolves
weak references; `blockMap` is `CopyScope::BlockMap`, mapping original
block ids to rewritten block ids. -/
structure CopyScope where
  varMap : List (Option Attr)
  instrMap : List (Option Attr)
  blockMap : List (Option Nat)
deriving DecidableEq

/-- The empty scope. -/
def emptyScope : CopyScope := ⟨[], [], []⟩

/-- Modelled from the spec: `ScopeFrame::isNull(index)` — true when no
substitution is registered for the variable index. -/
def CopyScope.isNull (s : CopyScope) (i : Nat) : Bool :=
  (getAt s.varMap i none).isNone

/-- Modelled from the spec: `ScopeFrame::var(index)` — the attribute
bound for a variable index. -/
def CopyScope.varAttr (s : CopyScope) (i : Nat) : Attr :=
  (getAt s.varMap i none).getD nullAttr

/-- Modelled from the spec: `ScopeFrame::insertInstructionMap` records
the rewritten attribute for an original instruction id. -/
def CopyScope.insertInstructionMap (s : CopyScope) (iid : Nat) (a : Attr) :
    CopyScope :=
  { s with instrMap := setPad s.instrMap iid (some a) }

/-- Read the instruction map at an original instruction id. -/
def CopyScope.instrAt (s : CopyScope) (iid : Nat) : Option Attr :=
  getAt s.instrMap iid none

/-- Embedding of `CopyScope::lookupBlock`: read `BlockMap` at the
original block's id (`nullptr` entries become `none`). -/
def CopyScope.lookupBlock (s : CopyScope) (o : OrigBlock) : Option Nat :=
  getAt s.blockMap o.blockID none

/-- The phi-argument mapping loop of `CopyScope::insertBlockMap`: for
each original argument that is non-null and has a positive instruction
id, map it to the corresponding argument of new block `bid`. -/
def insertArgMaps (bid : Nat) : CopyScope → Nat → List (Option OrigPhi) → CopyScope
  | s, _, [] => s
  | s, i, ph :: rest =>
      let s2 := match ph with
        | some p =>
            if 0 < p.instrID then
              s.insertInstructionMap p.instrID ⟨some (SExpr.phiRef bid i)⟩
            else s
        | none => s
      insertArgMaps bid s2 (i+1) rest

/-- Embedding of `CopyScope::insertBlockMap`: record that `o` maps to new
block `bid`, then map `o`'s used phi arguments to the arguments of the
new block `B`.  The source asserts that the argument counts agree; the
assertion failure is embedded as `none`. -/
def CopyScope.insertBlockMap (s : CopyScope) (o : OrigBlock) (bid : Nat)
    (B : BBlock) : Option CopyScope :=
  let s1 := { s with blockMap := setAt s.blockMap o.blockID (some bid) }
  if o.arguments.length = B.arguments.length then
    some (insertArgMaps bid s1 0 o.arguments)
  else none

/-- Embedding of `CopyScope::enterCFG(Orig, S)`: after the inherited
`ScopeFrame::enterCFG` (modelled from the spec as having no effect on
the three maps embedded here), resize `BlockMap` to the original graph's
block count and pre-register the original entry and exit blocks as
mapped to the new graph's entry (`newEntry`) and exit (`newExit`). -/
def CopyScope.enterCFG (s : CopyScope) (orig : OrigCFG) (bld : CFGBuilder)
    (newEntry newExit : Nat) : Option CopyScope :=
  let s1 : CopyScope := { s with blockMap := resizeL s.blockMap orig.numBlocks }
  match s1.insertBlockMap orig.entry newEntry
      (getAt bld.blocks newEntry emptyBlock) with
  | none => none
  | some s2 =>
      s2.insertBlockMap orig.exitB newExit (getAt bld.blocks newExit emptyBlock)

/-- Embedding of `CopyScope::exitCFG`: the inherited exit (modelled from
the spec as having no effect on the maps embedded here) followed by
`BlockMap.clear()`. -/
def CopyScope.exitCFG (s : CopyScope) : CopyScope :=
  { s with blockMap := [] }

/-- Embedding of `CopyScope::clone` (`new CopyScope(*this)`): a value
copy sharing no mutable state with the original. -/
def CopyScope.clone (s : CopyScope) : CopyScope := s

/-! ### CopyReducer reduction rules (from src/) -/

/-- The reducer-level state: the builder plus the active scope. -/
structure RState where
  builder : CFGBuilder
  scope : CopyScope
deriving DecidableEq

/-- Embedding of `CopyReducer::lookupBlock`: a null original yields a
null block; otherwise return the scope's mapping, or create a new block
on demand with the original's phi-argument count and predecessor
capacity and register it in the scope before returning.  The `none`
result propagates the argument-count assertion inside
`insertBlockMap`. -/
def lookupBlock (st : RState) (orig : Option OrigBlock) :
    Option (RState × Option Nat) :=
  match orig with
  | none => some (st, none)
  | some o =>
      match st.scope.lookupBlock o with
      | some b2 => some (st, some b2)
      | none =>
          let nargs := o.arguments.length
          let r := st.builder.newBlock nargs o.numPredecessors
          match st.scope.insertBlockMap o r.2 (getAt r.1.blocks r.2 emptyBlock) with
          | some sc => some ({ builder := r.1, scope := sc }, some r.2)
          | none => none

/-- Embedding of `CopyReducer::reduceVariable`: look up the referenced
declaration's index in the scope; with no substitution registered, build
a fresh Variable node for the original declaration, otherwise the bound
attribute itself is the result. -/
def reduceVariable (s : CopyScope) (Orig : VarDeclData) : Attr :=
  let idx := Orig.varIndex
  if s.isNull idx then ⟨some (newVariable Orig)⟩
  else s.varAttr idx

/-- Embedding of `CopyReducer::reduceCall`: build a new Call node from
the rewritten callee attribute, then set its calling convention to the
new node's own calling convention (this is what the source line
`Res->setCallingConvention(Res->callingConvention());` does — the
original node's convention is not read). -/
def reduceCall (Orig : SExpr) (a0 : Attr) : Attr :=
  let Res := newCall a0.Exp
  let Res2 := Res.setCallingConvention Res.callingConvention
  ⟨some Res2⟩

/-- The phi-wiring loop of `CopyReducer::reduceGoto`: write the `i`-th
goto argument attribute into the target's `i`-th phi at predecessor
index `idx`, for all attributes in order (the source iterates the target
block's phis in step with the attribute index; the counts are asserted
equal immediately before the loop). -/
def writePhis (bld : CFGBuilder) (bid idx : Nat) :
    Nat → List Attr → CFGBuilder
  | _, [] => bld
  | i, a :: rest => writePhis (bld.setPhiArgument bid i idx a.Exp) bid idx (i+1) rest

/-- Embedding of `CopyReducer::reduceGoto`: resolve the target block
(creating on demand), obtain a fresh predecessor index on it, build the
new Goto, check the argument-count assertion, write every goto argument
into the target's phis at that index, and close the current block with
the new Goto.  Assertion failures and builder contract violations are
embedded as `none`. -/
def reduceGoto (st : RState) (targetOrig : OrigBlock) (attrs : List Attr) :
    Option (RState × Attr) :=
  match lookupBlock st (some targetOrig) with
  | none => none
  | some (_, none) => none
  | some (st1, some bid) =>
      let r := st1.builder.addPredecessor bid st1.builder.state.currentBB
      let res := SExpr.goto bid r.2
      if (getAt r.1.blocks bid emptyBlock).arguments.length = attrs.length then
        match (writePhis r.1 bid r.2 0 attrs).endBlock (some res) with
        | .ok bld3 => some ({ builder := bld3, scope := st1.scope }, ⟨some res⟩)
        | .error _ => none
      else none

/-- Embedding of `CopyReducer::exitBlock`: a consistency check only — if
the terminator's rule already closed the block (no current block), do
nothing; otherwise the block was never closed, and the source calls
`Builder.endBlock(nullptr)`, a fatal contract violation under the
fail-fast policy. -/
def exitBlock (b : CFGBuilder) : Except String CFGBuilder :=
  match b.state.currentBB with
  | some _ => b.endBlock none
  | none => .ok b

/-! ### The lazy future mechanism (`LazyCopyFuture`, `LazyCopyTraversal`) -/

/-- Modelled from the spec: the traversal-position kinds that the lazy
wrapper inspects (`TRV_Lazy`, `TRV_Type`, `TRV_Tail`, plus the ordinary
eager position). -/
inductive TraversalKind where
  | norm
  | tail
  | lazy
  | type
deriving DecidableEq

/-- Embedding of an arena-allocated `LazyCopyFuture`: the captured
pending expression, the scope clone, the saved builder state and the
opens-new-graph flag.  Null pointers (after `finish`) are `none`. -/
structure FutureObj where
  pendingExpr : Option SExpr
  scopePtr : Option CopyScope
  bstate : BuilderState
  createCfg : Bool
deriving DecidableEq

/-- The traversal-level state: the builder, the active scope, the
attribute stack of the external dispatch mechanism (modelled from the
spec), the arena of allocated futures (ids are arena indices) and the
FIFO future queue (front at the head). -/
structure Machine where
  builder : CFGBuilder
  scope : CopyScope
  attrStack : List Attr
  futures : List FutureObj
  futureQueue : List Nat
deriving DecidableEq

/-- Embedding of `LazyCopyTraversal::makeFuture`: snapshot the current
builder state with instruction emission turned off, clone the current
scope, allocate the future in the arena, push it at the back of the FIFO
queue and return it. -/
def makeFuture (m : Machine) (E : SExpr) : Machine × Nat :=
  let Bs : BuilderState := { m.builder.state with emitInstrs := false }
  let f : FutureObj :=
    { pendingExpr := some E, scopePtr := some m.scope.clone,
      bstate := Bs, createCfg := false }
  let fid := m.futures.length
  ({ m with futures := m.futures ++ [f],
            futureQueue := m.futureQueue ++ [fid] }, fid)

/-- Embedding of `LazyCopyTraversal::traverse`: in a lazy or type
position whose node is not already a value, push an attribute whose
expression is a fresh future instead of recursing; otherwise recurse
through the normal dispatch mechanism (`superTv`, external). -/
def lazyTraverse (superTv : Machine → SExpr → TraversalKind → Machine)
    (m : Machine) (E : SExpr) (K : TraversalKind) : Machine :=
  if (K = .lazy ∨ K = .type) ∧ E.isValue = false then
    let r := makeFuture m E
    { r.1 with attrStack := r.1.attrStack ++ [⟨some (SExpr.future r.2)⟩] }
  else superTv m E K

/-- Embedding of the `enterCFG(nullptr)` branch of
`CopyReducer::enterCFG` (convert an ordinary term to a CFG): just begin
a fresh graph. -/
def Machine.enterCFGnull (m : Machine) : Machine :=
  { m with builder := m.builder.beginCFG }

/-- Embedding of `CopyReducer::exitCFG`: end the graph and exit the
scope's CFG frame. -/
def Machine.exitCFGnull (m : Machine) : Machine :=
  { m with builder := m.builder.endCFG, scope := m.scope.exitCFG }

/-- Embedding of `LazyCopyFuture::evaluate` together with `finish`:
switch in the future's saved scope and builder state (remembering the
force-time ones), open a fresh graph if requested, run the deferred
traversal `trav` (the external re-entrant dispatch) on the pending
expression, pop its result attribute, close and use the graph as result
if one was opened, restore the force-time builder state and scope, and
release the captured expression and scope clone.  Returns the machine,
the finished future and the result. -/
def evaluate (m : Machine) (f : FutureObj)
    (trav : Machine → Option SExpr → Machine) :
    Machine × FutureObj × Option SExpr :=
  let S := m.scope
  let Bs := m.builder.state
  let m1 : Machine := { m with scope := f.scopePtr.getD emptyScope,
                               builder := { m.builder with state := f.bstate } }
  let m2 := if f.createCfg then m1.enterCFGnull else m1
  let m3 := trav m2 f.pendingExpr
  let res : Option SExpr := match m3.attrStack.getLast? with
    | some a => a.Exp
    | none => none
  let m4 : Machine := { m3 with attrStack := m3.attrStack.dropLast }
  let res2 := if f.createCfg then m4.builder.currentCfg.map SExpr.cfgRef else res
  let m5 := if f.createCfg then m4.exitCFGnull else m4
  let m6 : Machine := { m5 with builder := { m5.builder with state := Bs },
                                scope := S }
  let f2 : FutureObj := { f with scopePtr := none, pendingExpr := none }
  (m6, f2, res2)

/-! ### The drain loop of `LazyCopyTraversal::traverseAll`

The queue drain is embedded over the forcing forest: each queued future
is a tree node whose children are exactly the futures enqueued while it
is being forced (nested lazy positions reached by its deferred
traversal).  `drainFull` is the while-loop of `traverseAll`: pop the
front future, force it (enqueueing its children at the back), and repeat
until the queue is empty, returning the futures in forcing order
together with the final queue. -/

/-- A node of the forcing forest: a future id and the futures enqueued
while forcing it. -/
inductive FutTree where
  | node (fid : Nat) (kids : List FutTree)

/-- The future id at the root of a forcing tree. -/
def FutTree.fid : FutTree → Nat
  | .node i _ => i

/-- The futures enqueued while forcing the root. -/
def FutTree.kids : FutTree → List FutTree
  | .node _ k => k

mutual

/-- Number of futures in a forcing tree. -/
def FutTree.size : FutTree → Nat
  | .node _ k => 1 + sizeL k

/-- Number of futures in a forest. -/
def sizeL : List FutTree → Nat
  | [] => 0
  | t :: q => t.size + sizeL q

end

mutual

/-- All future ids of a forcing tree, root first. -/
def FutTree.ids : FutTree → List Nat
  | .node i k => i :: idsL k

/-- All future ids of a forest, in order. -/
def idsL : List FutTree → List Nat
  | [] => []
  | t :: q => t.ids ++ idsL q

end

/-- Concatenation of the children of a forced sequence, in forcing
order: the enqueue order of all futures enqueued during the drain. -/
def kidsConcat : List FutTree → List FutTree
  | [] => []
  | t :: q => t.kids ++ kidsConcat q

/-- Embedding of the `while (!FutureQueue.empty())` drain loop of
`traverseAll`: pop the front future, force it — which enqueues its
children at the back of the queue — and continue until the queue is
empty.  Returns the forced futures in forcing order, and the queue left
when the loop exits. -/
def drainFull : List FutTree → List FutTree × List FutTree
  | [] => ([], [])
  | t :: q =>
      let r := drainFull (q ++ t.kids)
      (t :: r.1, r.2)
termination_by l => sizeL l
decreasing_by
  have happ : ∀ a b : List FutTree, sizeL (a ++ b) = sizeL a + sizeL b := by
    intro a b
    induction a with
    | nil => simp [sizeL]
    | cons x xs ih => simp [sizeL, ih]; omega
  cases t with
  | node i k => simp [happ, sizeL, FutTree.size, FutTree.kids]; omega

/-- Ids of the phi arguments a block-map insertion actually records: the
non-null arguments with a positive instruction id. -/
def posIds : List (Option OrigPhi) → List Nat
  | [] => []
  | some p :: rest => (if 0 < p.instrID then [p.instrID] else []) ++ posIds rest
  | none :: rest => posIds rest

/-! ### Helper lemmas about the list primitives -/

theorem length_setAt (l : List α) (i : Nat) (v : α) :
    (setAt l i v).length = l.length := by
  induction l generalizing i with
  | nil => rfl
  | cons x xs ih => cases i with
    | zero => rfl
    | succ n => simp [setAt, ih]

theorem getAt_setAt_self (l : List α) (i : Nat) (v d : α) (h : i < l.length) :
    getAt (setAt l i v) i d = v := by
  induction l generalizing i with
  | nil => simp at h
  | cons x xs ih => cases i with
    | zero => rfl
    | succ n => exact ih n (by simpa using h)

theorem getAt_setAt_ne (l : List α) {i j : Nat} (v d : α) (h : j ≠ i) :
    getAt (setAt l i v) j d = getAt l j d := by
  induction l generalizing i j with
  | nil => rfl
  | cons x xs ih =>
    cases i with
    | zero => cases j with
      | zero => exact absurd rfl h
      | succ m => rfl
    | succ n => cases j with
      | zero => rfl
      | succ m => exact ih (fun hc => h (by simp [hc]))

theorem length_modifyAt (l : List α) (i : Nat) (f : α → α) :
    (modifyAt l i f).length = l.length := by
  induction l generalizing i with
  | nil => rfl
  | cons x xs ih => cases i with
    | zero => rfl
    | succ n => simp [modifyAt, ih]

theorem getAt_modifyAt_self (l : List α) (i : Nat) (f : α → α) (d : α)
    (h : i < l.length) : getAt (modifyAt l i f) i d = f (getAt l i d) := by
  induction l generalizing i with
  | nil => simp at h
  | cons x xs ih => cases i with
    | zero => rfl
    | succ n => exact ih n (by simpa using h)

theorem getAt_modifyAt_ne (l : List α) {i j : Nat} (f : α → α) (d : α)
    (h : j ≠ i) : getAt (modifyAt l i f) j d = getAt l j d := by
  induction l generalizing i j with
  | nil => rfl
  | cons x xs ih =>
    cases i with
    | zero => cases j with
      | zero => exact absurd rfl h
      | succ m => rfl
    | succ n => cases j with
      | zero => rfl
      | succ m => exact ih (fun hc => h (by simp [hc]))

theorem getAt_ge (l : List α) (i : Nat) (d : α) (h : l.length ≤ i) :
    getAt l i d = d := by
  induction l generalizing i with
  | nil => cases i <;> rfl
  | cons x xs ih => cases i with
    | zero => simp at h
    | succ n => exact ih n (by simpa using h)

theorem getAt_append_left (l l2 : List α) (i : Nat) (d : α)
    (h : i < l.length) : getAt (l ++ l2) i d = getAt l i d := by
  induction l generalizing i with
  | nil => simp at h
  | cons x xs ih => cases i with
    | zero => rfl
    | succ n => exact ih n (by simpa using h)

theorem getAt_append_len (l : List α) (x d : α) :
    getAt (l ++ [x]) l.length d = x := by
  induction l with
  | nil => rfl
  | cons y ys ih => simpa using ih

theorem getAt_replicate (n i : Nat) (v d : α) (h : i < n) :
    getAt (List.replicate n v) i d = v := by
  induction n generalizing i with
  | zero => simp at h
  | succ m ih => cases i with
    | zero => rfl
    | succ k => exact ih k (by omega)

theorem getAt_append_skip (l l2 : List α) (i : Nat) (d : α)
    (h : l.length ≤ i) : getAt (l ++ l2) i d = getAt l2 (i - l.length) d := by
  induction l generalizing i with
  | nil => simp
  | cons x xs ih =>
    cases i with
    | zero => simp at h
    | succ k =>
      have := ih k (by simpa using h)
      simpa [getAt] using this

theorem length_padTo (l : List (Option α)) (n : Nat) :
    (padTo l n).length = max l.length n := by
  unfold padTo
  split <;> simp <;> omega

theorem getAt_padTo (l : List (Option α)) (n i : Nat) :
    getAt (padTo l n) i none = getAt l i none := by
  unfold padTo
  split
  · rfl
  · rcases Nat.lt_or_ge i l.length with h | h
    · exact getAt_append_left _ _ _ _ h
    · rw [getAt_ge l i none h]
      rcases Nat.lt_or_ge i (l ++ List.replicate (n - l.length) none).length with h2 | h2
      · have hlt : i - l.length < n - l.length := by simp at h2; omega
        rw [getAt_append_skip _ _ _ _ h]
        exact getAt_replicate _ _ _ _ hlt
      · exact getAt_ge _ _ _ h2

theorem getAt_setPad_self (l : List (Option α)) (i : Nat) (v : Option α) :
    getAt (setPad l i v) i none = v := by
  unfold setPad
  apply getAt_setAt_self
  rw [length_padTo]
  omega

theorem getAt_setPad_ne (l : List (Option α)) {i j : Nat} (v : Option α)
    (h : j ≠ i) : getAt (setPad l i v) j none = getAt l j none := by
  unfold setPad
  rw [getAt_setAt_ne _ _ _ h, getAt_padTo]

theorem length_resizeL (l : List (Option α)) (n : Nat) :
    (resizeL l n).length = n := by
  unfold resizeL
  split <;> simp <;> omega

theorem modifyAt_ge (l : List α) (i : Nat) (f : α → α) (h : l.length ≤ i) :
    modifyAt l i f = l := by
  induction l generalizing i with
  | nil => rfl
  | cons x xs ih => cases i with
    | zero => simp at h
    | succ n => simp [modifyAt, ih n (by simpa using h)]

theorem addPredecessor_spec (b : CFGBuilder) (bid : Nat) (pred : Option Nat)
    (h : bid < b.blocks.length) :
    (b.addPredecessor bid pred).2
        = (getAt b.blocks bid emptyBlock).predecessors.length ∧
    (b.addPredecessor bid pred).1.blocks.length = b.blocks.length ∧
    (b.addPredecessor bid pred).1.state = b.state ∧
    (getAt (b.addPredecessor bid pred).1.blocks bid emptyBlock).predecessors
        = (getAt b.blocks bid emptyBlock).predecessors ++ [pred] ∧
    (getAt (b.addPredecessor bid pred).1.blocks bid emptyBlock).arguments
        = (getAt b.blocks bid emptyBlock).arguments ∧
    (getAt (b.addPredecessor bid pred).1.blocks bid emptyBlock).terminator
        = (getAt b.blocks bid emptyBlock).terminator ∧
    (∀ j, j ≠ bid → getAt (b.addPredecessor bid pred).1.blocks j emptyBlock
        = getAt b.blocks j emptyBlock) := by
  refine ⟨rfl, by simp [CFGBuilder.addPredecessor, length_modifyAt], rfl,
    ?_, ?_, ?_, ?_⟩
  · simp [CFGBuilder.addPredecessor, getAt_modifyAt_self _ _ _ _ h]
  · simp [CFGBuilder.addPredecessor, getAt_modifyAt_self _ _ _ _ h]
  · simp [CFGBuilder.addPredecessor, getAt_modifyAt_self _ _ _ _ h]
  · intro j hj
    simp [CFGBuilder.addPredecessor, getAt_modifyAt_ne _ _ _ hj]

theorem setPhiArgument_spec (b : CFGBuilder) (bid argIdx predIdx : Nat)
    (v : Option SExpr) (h : bid < b.blocks.length) :
    (b.setPhiArgument bid argIdx predIdx v).blocks.length = b.blocks.length ∧
    (b.setPhiArgument bid argIdx predIdx v).state = b.state ∧
    (∀ j, j ≠ bid → getAt (b.setPhiArgument bid argIdx predIdx v).blocks j
        emptyBlock = getAt b.blocks j emptyBlock) ∧
    (getAt (b.setPhiArgument bid argIdx predIdx v).blocks bid
        emptyBlock).predecessors = (getAt b.blocks bid emptyBlock).predecessors ∧
    (getAt (b.setPhiArgument bid argIdx predIdx v).blocks bid
        emptyBlock).terminator = (getAt b.blocks bid emptyBlock).terminator ∧
    (getAt (b.setPhiArgument bid argIdx predIdx v).blocks bid
        emptyBlock).arguments.length
        = (getAt b.blocks bid emptyBlock).arguments.length ∧
    (∀ k, k ≠ argIdx →
      getAt (getAt (b.setPhiArgument bid argIdx predIdx v).blocks bid
          emptyBlock).arguments k emptyPhi
        = getAt (getAt b.blocks bid emptyBlock).arguments k emptyPhi) ∧
    (argIdx < (getAt b.blocks bid emptyBlock).arguments.length →
      getAt (getAt (b.setPhiArgument bid argIdx predIdx v).blocks bid
          emptyBlock).arguments argIdx emptyPhi
        = ⟨setPad (getAt (getAt b.blocks bid emptyBlock).arguments argIdx
            emptyPhi).values predIdx v⟩) := by
  refine ⟨by simp [CFGBuilder.setPhiArgument, length_modifyAt], rfl,
    ?_, ?_, ?_, ?_, ?_, ?_⟩
  · intro j hj
    simp [CFGBuilder.setPhiArgument, getAt_modifyAt_ne _ _ _ hj]
  · simp [CFGBuilder.setPhiArgument, getAt_modifyAt_self _ _ _ _ h]
  · simp [CFGBuilder.setPhiArgument, getAt_modifyAt_self _ _ _ _ h]
  · simp [CFGBuilder.setPhiArgument, getAt_modifyAt_self _ _ _ _ h,
      length_modifyAt]
  · intro k hk
    simp [CFGBuilder.setPhiArgument, getAt_modifyAt_self _ _ _ _ h,
      getAt_modifyAt_ne _ _ _ hk]
  · intro ha
    simp [CFGBuilder.setPhiArgument, getAt_modifyAt_self _ _ _ _ h,
      getAt_modifyAt_self _ _ _ _ ha]

theorem writePhis_spec (bid idx : Nat) (attrs : List Attr) :
    ∀ (bld : CFGBuilder) (i : Nat), bid < bld.blocks.length →
      i + attrs.length ≤ (getAt bld.blocks bid emptyBlock).arguments.length →
      (writePhis bld bid idx i attrs).blocks.length = bld.blocks.length ∧
      (writePhis bld bid idx i attrs).state = bld.state ∧
      (∀ j, j ≠ bid → getAt (writePhis bld bid idx i attrs).blocks j emptyBlock
          = getAt bld.blocks j emptyBlock) ∧
      (getAt (writePhis bld bid idx i attrs).blocks bid
          emptyBlock).predecessors
        = (getAt bld.blocks bid emptyBlock).predecessors ∧
      (getAt (writePhis bld bid idx i attrs).blocks bid emptyBlock).terminator
        = (getAt bld.blocks bid emptyBlock).terminator ∧
      (getAt (writePhis bld bid idx i attrs).blocks bid
          emptyBlock).arguments.length
        = (getAt bld.blocks bid emptyBlock).arguments.length ∧
      (∀ j, j < i →
        getAt (getAt (writePhis bld bid idx i attrs).blocks bid
            emptyBlock).arguments j emptyPhi
          = getAt (getAt bld.blocks bid emptyBlock).arguments j emptyPhi) ∧
      (∀ k, k < attrs.length →
        getAt (getAt (getAt (writePhis bld bid idx i attrs).blocks bid
            emptyBlock).arguments (i+k) emptyPhi).values idx none
          = (getAt attrs k nullAttr).Exp) := by
  induction attrs with
  | nil =>
    intro bld i hb _
    refine ⟨rfl, rfl, fun j _ => rfl, rfl, rfl, rfl, fun j _ => rfl, ?_⟩
    intro k hk
    simp at hk
  | cons a rest ih =>
    intro bld i hb hlen
    obtain ⟨hs1, hs2, hs3, hs4, hs5, hs6, hs7, hs8⟩ :=
      setPhiArgument_spec bld bid i idx a.Exp hb
    have hb2 : bid < (bld.setPhiArgument bid i idx a.Exp).blocks.length := by
      rw [hs1]; exact hb
    have hia : i < (getAt bld.blocks bid emptyBlock).arguments.length := by
      simp at hlen; omega
    have hlen2 : (i+1) + rest.length
        ≤ (getAt (bld.setPhiArgument bid i idx a.Exp).blocks bid
            emptyBlock).arguments.length := by
      rw [hs6]; simp at hlen ⊢; omega
    obtain ⟨ih1, ih2, ih3, ih4, ih5, ih6, ih7, ih8⟩ :=
      ih (bld.setPhiArgument bid i idx a.Exp) (i+1) hb2 hlen2
    have hw : writePhis bld bid idx i (a :: rest)
        = writePhis (bld.setPhiArgument bid i idx a.Exp) bid idx (i+1) rest := rfl
    rw [hw]
    refine ⟨by rw [ih1, hs1], by rw [ih2, hs2], ?_, by rw [ih4, hs4],
      by rw [ih5, hs5], by rw [ih6, hs6], ?_, ?_⟩
    · intro j hj
      rw [ih3 j hj, hs3 j hj]
    · intro j hj
      rw [ih7 j (by omega), hs7 j (by omega)]
    · intro k hk
      cases k with
      | zero =>
        have hphi := ih7 i (by omega)
        show getAt (getAt (getAt (writePhis (bld.setPhiArgument bid i idx a.Exp) bid idx (i + 1) rest).blocks bid emptyBlock).arguments i emptyPhi).values idx none = a.Exp
        rw [hphi, hs8 hia]
        simp [getAt_setPad_self]
      | succ k2 =>
        have := ih8 k2 (by simpa using hk)
        have harith : i + (k2 + 1) = (i + 1) + k2 := by omega
        rw [harith, this]
        rfl

theorem endBlock_some (b : CFGBuilder) (t : SExpr) (c : Nat)
    (h : b.state.currentBB = some c) :
    b.endBlock (some t)
      = .ok ⟨modifyAt b.blocks c (fun blk => { blk with terminator := some t }),
          ⟨none, b.state.emitInstrs⟩, b.cfgCount, b.currentCfg⟩ := by
  simp only [CFGBuilder.endBlock, h]

theorem getAt_modifyAt_term (bl : List BBlock) (c j : Nat) (t : Option SExpr) :
    (getAt (modifyAt bl c (fun blk => { blk with terminator := t })) j
        emptyBlock).predecessors = (getAt bl j emptyBlock).predecessors ∧
    (getAt (modifyAt bl c (fun blk => { blk with terminator := t })) j
        emptyBlock).arguments = (getAt bl j emptyBlock).arguments := by
  by_cases h : j = c
  · subst h
    by_cases hl : j < bl.length
    · rw [getAt_modifyAt_self _ _ _ _ hl]
      exact ⟨rfl, rfl⟩
    · rw [modifyAt_ge _ _ _ (by omega)]
      exact ⟨rfl, rfl⟩
  · rw [getAt_modifyAt_ne _ _ _ h]
    exact ⟨rfl, rfl⟩

theorem getAt_modifyAt_term_self (bl : List BBlock) (c : Nat)
    (t : Option SExpr) (h : c < bl.length) :
    (getAt (modifyAt bl c (fun blk => { blk with terminator := t })) c
        emptyBlock).terminator = t := by
  rw [getAt_modifyAt_self _ _ _ _ h]

theorem insertArgMaps_blockMap (bid : Nat) (s : CopyScope) (i : Nat)
    (l : List (Option OrigPhi)) :
    (insertArgMaps bid s i l).blockMap = s.blockMap := by
  induction l generalizing s i with
  | nil => rfl
  | cons ph rest ih =>
    cases ph with
    | none => exact ih s (i+1)
    | some p =>
      by_cases hp : 0 < p.instrID
      · simpa [insertArgMaps, hp, CopyScope.insertInstructionMap] using
          ih (s.insertInstructionMap p.instrID ⟨some (SExpr.phiRef bid i)⟩) (i+1)
      · simpa [insertArgMaps, hp] using ih s (i+1)

theorem insertArgMaps_instrAt_preserve (bid : Nat)
    (l : List (Option OrigPhi)) :
    ∀ (s : CopyScope) (i k : Nat), k ∉ posIds l →
      (insertArgMaps bid s i l).instrAt k = s.instrAt k := by
  induction l with
  | nil => intro s i k _; rfl
  | cons ph rest ih =>
    intro s i k hk
    cases ph with
    | none => exact ih s (i+1) k (by simpa [posIds] using hk)
    | some p =>
      by_cases hp : 0 < p.instrID
      · have hk2 : k ∉ posIds rest := by
          simp [posIds, hp] at hk
          exact hk.2
        have hkne : k ≠ p.instrID := by
          simp [posIds, hp] at hk
          exact hk.1
        have hstep : insertArgMaps bid s i (some p :: rest)
            = insertArgMaps bid
                (s.insertInstructionMap p.instrID ⟨some (SExpr.phiRef bid i)⟩)
                (i+1) rest := by
          simp [insertArgMaps, hp]
        rw [hstep, ih _ (i+1) k hk2]
        simp [CopyScope.insertInstructionMap, CopyScope.instrAt,
          getAt_setPad_ne _ _ hkne]
      · have hstep : insertArgMaps bid s i (some p :: rest)
            = insertArgMaps bid s (i+1) rest := by
          simp [insertArgMaps, hp]
        rw [hstep]
        exact ih s (i+1) k (by simpa [posIds, hp] using hk)

theorem insertArgMaps_instrAt_write (bid : Nat) (l : List (Option OrigPhi)) :
    ∀ (s : CopyScope) (i j : Nat) (p : OrigPhi),
      getAt l j none = some p → 0 < p.instrID →
      p.instrID ∉ posIds (l.drop (j+1)) →
      (insertArgMaps bid s i l).instrAt p.instrID
        = some ⟨some (SExpr.phiRef bid (i+j))⟩ := by
  induction l with
  | nil => intro s i j p hj _ _; cases j <;> simp [getAt] at hj
  | cons ph rest ih =>
    intro s i j p hj hp hdrop
    cases j with
    | zero =>
      have hph : ph = some p := hj
      subst hph
      have hstep : insertArgMaps bid s i (some p :: rest)
          = insertArgMaps bid
              (s.insertInstructionMap p.instrID ⟨some (SExpr.phiRef bid i)⟩)
              (i+1) rest := by
        simp [insertArgMaps, hp]
      rw [hstep, insertArgMaps_instrAt_preserve bid rest _ (i+1) p.instrID
        (by simpa using hdrop)]
      show getAt (setPad s.instrMap p.instrID
          (some ⟨some (SExpr.phiRef bid i)⟩)) p.instrID none = _
      rw [getAt_setPad_self]
      rfl
    | succ j2 =>
      have hj2 : getAt rest j2 none = some p := hj
      have hdrop2 : p.instrID ∉ posIds (rest.drop (j2+1)) := hdrop
      cases ph with
      | none =>
        have hstep : insertArgMaps bid s i (none :: rest)
            = insertArgMaps bid s (i+1) rest := rfl
        rw [hstep, ih s (i+1) j2 p hj2 hp hdrop2]
        simp only [Option.some.injEq, Attr.mk.injEq, SExpr.phiRef.injEq, true_and]
        omega
      | some q =>
        by_cases hq : 0 < q.instrID
        · have hstep : insertArgMaps bid s i (some q :: rest)
              = insertArgMaps bid
                  (s.insertInstructionMap q.instrID ⟨some (SExpr.phiRef bid i)⟩)
                  (i+1) rest := by
            simp [insertArgMaps, hq]
          rw [hstep, ih _ (i+1) j2 p hj2 hp hdrop2]
          simp only [Option.some.injEq, Attr.mk.injEq, SExpr.phiRef.injEq, true_and]
          omega
        · have hstep : insertArgMaps bid s i (some q :: rest)
              = insertArgMaps bid s (i+1) rest := by
            simp [insertArgMaps, hq]
          rw [hstep, ih s (i+1) j2 p hj2 hp hdrop2]
          simp only [Option.some.injEq, Attr.mk.injEq, SExpr.phiRef.injEq, true_and]
          omega

/-! ### Claim theorems -/

/-- Claim C1: for every term containing a reference to a bound variable
at index `i`, if the active scope binds index `i` to a replacement
attribute `A`, `reduceVariable` stores `A` itself as the result
attribute; if the scope has no binding for index `i` (`isNull`),
`reduceVariable` instead builds a fresh Variable node referring to the
original variable declaration, never substituting. -/
theorem reduceVariable_substitution (s : CopyScope) (d : VarDeclData) :
    (∀ A : Attr, getAt s.varMap d.varIndex none = some A →
      reduceVariable s d = A) ∧
    (getAt s.varMap d.varIndex none = none →
      reduceVariable s d = ⟨some (SExpr.var d)⟩) := by
  constructor
  · intro A h
    simp [reduceVariable, CopyScope.isNull, CopyScope.varAttr, h]
  · intro h
    simp [reduceVariable, CopyScope.isNull, CopyScope.varAttr, h, newVariable]

/-- Witness for C1: a scope binding index 0 to the literal 7 substitutes
that attribute for the variable, and the empty scope copies a reference
to the variable declared at index 3 verbatim. -/
theorem reduceVariable_substitution_witness :
    reduceVariable ⟨[some ⟨some (SExpr.lit 7)⟩], [], []⟩ ⟨0, "x", 0⟩
      = ⟨some (SExpr.lit 7)⟩ ∧
    reduceVariable emptyScope ⟨0, "y", 3⟩ = ⟨some (SExpr.var ⟨0, "y", 3⟩)⟩ :=
  ⟨(reduceVariable_substitution ⟨[some ⟨some (SExpr.lit 7)⟩], [], []⟩ ⟨0, "x", 0⟩).1
      ⟨some (SExpr.lit 7)⟩ rfl,
   (reduceVariable_substitution emptyScope ⟨0, "y", 3⟩).2 rfl⟩

/-- Claim C4 (code bug): `reduceCall` sets the new Call node's calling
convention to the new node's own freshly-constructed (default) value —
`Res->setCallingConvention(Res->callingConvention())` — instead of the
original call's.  At an original call with non-default calling
convention 1, the copy's calling convention is the default 0, not 1. -/
theorem reduceCall_drops_calling_convention :
    (SExpr.call (SExpr.lit 0) 1).callingConvention = 1 ∧
    reduceCall (SExpr.call (SExpr.lit 0) 1) ⟨some (SExpr.lit 0)⟩
      = ⟨some (SExpr.call (SExpr.lit 0) 0)⟩ ∧
    (reduceCall (SExpr.call (SExpr.lit 0) 1) ⟨some (SExpr.lit 0)⟩).Exp.map
        SExpr.callingConvention ≠ some 1 := by
  decide

/-- Claim C9: `exitBlock` is a consistency check only — when the
terminator's rule already closed the block (no current block), it leaves
the builder, and hence the constructed graph, entirely unchanged; when a
block was never closed, the `endBlock(nullptr)` call is a null-terminator
contract violation, surfaced as an error under the fail-fast policy. -/
theorem exitBlock_consistency (b : CFGBuilder) :
    (b.state.currentBB = none → exitBlock b = .ok b) ∧
    (∀ c, b.state.currentBB = some c →
      exitBlock b = .error "endBlock: null terminator") := by
  constructor
  · intro h
    simp [exitBlock, h]
  · intro c h
    simp [exitBlock, h, CFGBuilder.endBlock]

/-- Witness for C9: a builder with no current block passes the check
unchanged; one with an open block is rejected. -/
theorem exitBlock_consistency_witness :
    exitBlock ⟨[], ⟨none, true⟩, 0, none⟩ = .ok ⟨[], ⟨none, true⟩, 0, none⟩ ∧
    exitBlock ⟨[], ⟨some 0, true⟩, 0, none⟩
      = .error "endBlock: null terminator" :=
  ⟨(exitBlock_consistency ⟨[], ⟨none, true⟩, 0, none⟩).1 rfl,
   (exitBlock_consistency ⟨[], ⟨some 0, true⟩, 0, none⟩).2 0 rfl⟩

/-- Claim C10: `CopyReducer::lookupBlock` on a null original block
returns null, with the reducer state — builder arena and scope —
entirely unchanged: no block is allocated and no mapping is
registered. -/
theorem lookupBlock_null (st : RState) :
    lookupBlock st none = some (st, none) := rfl

/-- Claim C3: for a non-null original block, `lookupBlock` returns the
scope's existing mapping unchanged when one exists; otherwise it
allocates a new destination block with the same phi-argument count and
the same predecessor capacity as the original, registers the mapping in
the scope before returning, and every subsequent lookup of the same
original returns that same block with the state unchanged — so block
wiring does not depend on visitation order. -/
theorem lookupBlock_lookup_or_create (st : RState) (o : OrigBlock)
    (hin : o.blockID < st.scope.blockMap.length) :
    (∀ bid, getAt st.scope.blockMap o.blockID none = some bid →
        lookupBlock st (some o) = some (st, some bid)) ∧
    (getAt st.scope.blockMap o.blockID none = none →
      (lookupBlock st (some o)).isSome) ∧
    (getAt st.scope.blockMap o.blockID none = none →
      ∀ st2 r, lookupBlock st (some o) = some (st2, r) →
        r = some st.builder.blocks.length ∧
        (getAt st2.builder.blocks st.builder.blocks.length
            emptyBlock).arguments.length = o.arguments.length ∧
        (getAt st2.builder.blocks st.builder.blocks.length
            emptyBlock).predCapacity = o.numPredecessors ∧
        getAt st2.scope.blockMap o.blockID none
          = some st.builder.blocks.length ∧
        lookupBlock st2 (some o) = some (st2, r)) := by
  refine ⟨?_, ?_, ?_⟩
  · intro bid h
    simp [lookupBlock, CopyScope.lookupBlock, h]
  · intro h
    simp [lookupBlock, CopyScope.lookupBlock, h, CFGBuilder.newBlock,
      CopyScope.insertBlockMap, getAt_append_len]
  · intro h st2 r heq
    simp only [lookupBlock, CopyScope.lookupBlock, h, CFGBuilder.newBlock,
      CopyScope.insertBlockMap, getAt_append_len, List.length_replicate,
      if_pos] at heq
    obtain ⟨h2, h1⟩ := Prod.mk.injEq .. ▸ (Option.some.injEq _ _ ▸ heq)
    subst h2 h1
    refine ⟨rfl, ?_, ?_, ?_, ?_⟩
    · simp [getAt_append_len]
    · simp [getAt_append_len]
    · simp [insertArgMaps_blockMap]
      exact getAt_setAt_self _ _ _ _ hin
    · have hm : getAt (setAt st.scope.blockMap o.blockID (some st.builder.blocks.length)) o.blockID none = some st.builder.blocks.length :=
        getAt_setAt_self _ _ _ _ hin
      simp [lookupBlock, CopyScope.lookupBlock, insertArgMaps_blockMap, hm]

/-- Counterexample for C5: the claim says `enterCFG` maps "each phi
argument" of the entry and exit blocks into the instruction map, but the
source only maps arguments with a positive instruction id.  For an
original graph whose entry block has one phi argument with instruction
id 0, `enterCFG` succeeds with an empty instruction map: no entry at any
key exists for that phi, so it was not mapped. -/
theorem enterCFG_unnumbered_phi_not_mapped :
    CopyScope.enterCFG emptyScope ⟨2, ⟨0, [some ⟨0⟩], 0⟩, ⟨1, [], 1⟩⟩
        ⟨[⟨[emptyPhi], [], 0, [], none⟩, ⟨[], [], 1, [], none⟩],
          ⟨none, true⟩, 0, none⟩ 0 1
      = some ⟨[], [], [some 0, some 1]⟩ ∧
    (CopyScope.instrAt ⟨[], [], [some 0, some 1]⟩ 0 = none ∧
     CopyScope.instrMap ⟨[], [], [some 0, some 1]⟩ = []) := by
  decide

/-- Claim C5 (amended): `enterCFG` allocates a block map sized to the
original graph's block count, registers the original entry and exit
blocks as mapped to the new graph's entry and exit — so neither is ever
created on demand by a later `lookupBlock` — and maps each phi argument
of those two blocks that is non-null and has a positive instruction id
(i.e. is referenced elsewhere) to the corresponding argument on the new
side. -/
theorem enterCFG_premaps_entry_exit (s : CopyScope) (orig : OrigCFG)
    (bld : CFGBuilder) (newEntry newExit : Nat)
    (hE : orig.entry.blockID < orig.numBlocks)
    (hX : orig.exitB.blockID < orig.numBlocks)
    (hne : orig.entry.blockID ≠ orig.exitB.blockID)
    (hlenE : orig.entry.arguments.length
      = (getAt bld.blocks newEntry emptyBlock).arguments.length)
    (hlenX : orig.exitB.arguments.length
      = (getAt bld.blocks newExit emptyBlock).arguments.length) :
    (s.enterCFG orig bld newEntry newExit).isSome ∧
    ∀ s2, s.enterCFG orig bld newEntry newExit = some s2 →
      s2.blockMap.length = orig.numBlocks ∧
      getAt s2.blockMap orig.entry.blockID none = some newEntry ∧
      getAt s2.blockMap orig.exitB.blockID none = some newExit ∧
      (∀ bld2, lookupBlock ⟨bld2, s2⟩ (some orig.entry)
        = some (⟨bld2, s2⟩, some newEntry)) ∧
      (∀ bld2, lookupBlock ⟨bld2, s2⟩ (some orig.exitB)
        = some (⟨bld2, s2⟩, some newExit)) ∧
      (∀ j p, getAt orig.entry.arguments j none = some p → 0 < p.instrID →
        p.instrID ∉ posIds (orig.entry.arguments.drop (j+1)) →
        p.instrID ∉ posIds orig.exitB.arguments →
        s2.instrAt p.instrID = some ⟨some (SExpr.phiRef newEntry j)⟩) ∧
      (∀ j p, getAt orig.exitB.arguments j none = some p → 0 < p.instrID →
        p.instrID ∉ posIds (orig.exitB.arguments.drop (j+1)) →
        s2.instrAt p.instrID = some ⟨some (SExpr.phiRef newExit j)⟩) := by
  have hred : s.enterCFG orig bld newEntry newExit
      = some (insertArgMaps newExit
          { insertArgMaps newEntry { s with blockMap := setAt (resizeL s.blockMap orig.numBlocks) orig.entry.blockID (some newEntry) } 0 orig.entry.arguments with
              blockMap := setAt (insertArgMaps newEntry { s with blockMap := setAt (resizeL s.blockMap orig.numBlocks) orig.entry.blockID (some newEntry) } 0 orig.entry.arguments).blockMap orig.exitB.blockID (some newExit) }
          0 orig.exitB.arguments) := by
    have h1 : s.enterCFG orig bld newEntry newExit
        = CopyScope.insertBlockMap (insertArgMaps newEntry { s with blockMap := setAt (resizeL s.blockMap orig.numBlocks) orig.entry.blockID (some newEntry) } 0 orig.entry.arguments) orig.exitB newExit (getAt bld.blocks newExit emptyBlock) := by
      simp only [CopyScope.enterCFG, CopyScope.insertBlockMap]
      rw [if_pos hlenE]
    rw [h1]
    simp only [CopyScope.insertBlockMap]
    rw [if_pos hlenX]
  refine ⟨by rw [hred]; rfl, ?_⟩
  intro s2 heq
  rw [hred, Option.some.injEq] at heq
  subst heq
  set S1 : CopyScope := insertArgMaps newEntry { s with blockMap := setAt (resizeL s.blockMap orig.numBlocks) orig.entry.blockID (some newEntry) } 0 orig.entry.arguments with hS1
  set S2 : CopyScope := insertArgMaps newExit { S1 with blockMap := setAt S1.blockMap orig.exitB.blockID (some newExit) } 0 orig.exitB.arguments with hS2
  have hbm : S2.blockMap
      = setAt (setAt (resizeL s.blockMap orig.numBlocks) orig.entry.blockID (some newEntry)) orig.exitB.blockID (some newExit) := by
    rw [hS2, insertArgMaps_blockMap]
    show setAt S1.blockMap orig.exitB.blockID (some newExit) = _
    rw [hS1, insertArgMaps_blockMap]
  have hlen1 : (setAt (resizeL s.blockMap orig.numBlocks) orig.entry.blockID (some newEntry)).length = orig.numBlocks := by
    rw [length_setAt, length_resizeL]
  have hgE : getAt (setAt (setAt (resizeL s.blockMap orig.numBlocks) orig.entry.blockID (some newEntry)) orig.exitB.blockID (some newExit)) orig.entry.blockID none = some newEntry := by
    rw [getAt_setAt_ne _ _ _ hne]
    exact getAt_setAt_self _ _ _ _ (by rw [length_resizeL]; exact hE)
  have hgX : getAt (setAt (setAt (resizeL s.blockMap orig.numBlocks) orig.entry.blockID (some newEntry)) orig.exitB.blockID (some newExit)) orig.exitB.blockID none = some newExit :=
    getAt_setAt_self _ _ _ _ (by rw [hlen1]; exact hX)
  refine ⟨?_, ?_, ?_, ?_, ?_, ?_, ?_⟩
  · rw [hbm, length_setAt, hlen1]
  · rw [hbm]; exact hgE
  · rw [hbm]; exact hgX
  · intro bld2
    have hli : CopyScope.lookupBlock S2 orig.entry = some newEntry := by
      show getAt S2.blockMap orig.entry.blockID none = some newEntry
      rw [hbm]; exact hgE
    simp only [lookupBlock, hli]
  · intro bld2
    have hli : CopyScope.lookupBlock S2 orig.exitB = some newExit := by
      show getAt S2.blockMap orig.exitB.blockID none = some newExit
      rw [hbm]; exact hgX
    simp only [lookupBlock, hli]
  · intro j p hj hp hdropE hnotX
    rw [hS2,
      insertArgMaps_instrAt_preserve newExit orig.exitB.arguments _ 0 p.instrID hnotX]
    show S1.instrAt p.instrID = _
    rw [hS1]
    have hw := insertArgMaps_instrAt_write newEntry orig.entry.arguments
      { s with blockMap := setAt (resizeL s.blockMap orig.numBlocks) orig.entry.blockID (some newEntry) }
      0 j p hj hp hdropE
    rw [Nat.zero_add] at hw
    exact hw
  · intro j p hj hp hdropX
    rw [hS2]
    have hw := insertArgMaps_instrAt_write newExit orig.exitB.arguments
      { S1 with blockMap := setAt S1.blockMap orig.exitB.blockID (some newExit) }
      0 j p hj hp hdropX
    rw [Nat.zero_add] at hw
    exact hw

/-- Witness for C5 (amended): on a two-block graph whose entry has one
phi argument with instruction id 4, `enterCFG` registers entry and exit
in the block map, later lookups return them without creating blocks, and
the numbered phi is mapped to the new entry's argument 0. -/
theorem enterCFG_premaps_entry_exit_witness :
    (CopyScope.enterCFG emptyScope ⟨2, ⟨0, [some ⟨4⟩], 0⟩, ⟨1, [], 1⟩⟩
        ⟨[⟨[emptyPhi], [], 0, [], none⟩, ⟨[], [], 1, [], none⟩],
          ⟨none, true⟩, 0, none⟩ 0 1).isSome ∧
    getAt (⟨[], [none, none, none, none, some ⟨some (SExpr.phiRef 0 0)⟩], [some 0, some 1]⟩ : CopyScope).blockMap 0 none = some 0 ∧
    lookupBlock ⟨⟨[], ⟨none, true⟩, 0, none⟩, ⟨[], [none, none, none, none, some ⟨some (SExpr.phiRef 0 0)⟩], [some 0, some 1]⟩⟩ (some ⟨0, [some ⟨4⟩], 0⟩)
      = some (⟨⟨[], ⟨none, true⟩, 0, none⟩, ⟨[], [none, none, none, none, some ⟨some (SExpr.phiRef 0 0)⟩], [some 0, some 1]⟩⟩, some 0) ∧
    CopyScope.instrAt ⟨[], [none, none, none, none, some ⟨some (SExpr.phiRef 0 0)⟩], [some 0, some 1]⟩ 4 = some ⟨some (SExpr.phiRef 0 0)⟩ := by
  have T := enterCFG_premaps_entry_exit emptyScope
    ⟨2, ⟨0, [some ⟨4⟩], 0⟩, ⟨1, [], 1⟩⟩
    ⟨[⟨[emptyPhi], [], 0, [], none⟩, ⟨[], [], 1, [], none⟩], ⟨none, true⟩, 0, none⟩
    0 1 (by decide) (by decide) (by decide) (by decide) (by decide)
  have C := T.2 ⟨[], [none, none, none, none, some ⟨some (SExpr.phiRef 0 0)⟩], [some 0, some 1]⟩ (by decide)
  exact ⟨T.1, C.2.1, C.2.2.2.1 ⟨[], ⟨none, true⟩, 0, none⟩,
    C.2.2.2.2.2.1 0 ⟨4⟩ (by decide) (by decide) (by decide) (by decide)⟩

/-- Claim C2: when a Goto's argument count equals its (resolved) target
block's phi-argument count, `reduceGoto` obtains a fresh predecessor
index on the target by extending its predecessor list with the current
block, writes the `i`-th goto argument attribute into the target's
`i`-th phi placeholder at that predecessor index for every `i`, and
closes the current block with the newly built Goto as its terminator; a
mismatched argument/phi count is a fatal contract violation (`none`). -/
theorem reduceGoto_wires_phis (st st1 : RState) (o : OrigBlock)
    (attrs : List Attr) (bid c : Nat)
    (hlk : lookupBlock st (some o) = some (st1, some bid))
    (hbid : bid < st1.builder.blocks.length)
    (hc : c < st1.builder.blocks.length)
    (hcur : st1.builder.state.currentBB = some c) :
    ((getAt st1.builder.blocks bid emptyBlock).arguments.length ≠ attrs.length →
      reduceGoto st o attrs = none) ∧
    ((getAt st1.builder.blocks bid emptyBlock).arguments.length = attrs.length →
      (reduceGoto st o attrs).isSome ∧
      ∀ st2 a, reduceGoto st o attrs = some (st2, a) →
        a = ⟨some (SExpr.goto bid (getAt st1.builder.blocks bid
            emptyBlock).predecessors.length)⟩ ∧
        st2.scope = st1.scope ∧
        st2.builder.state.currentBB = none ∧
        (getAt st2.builder.blocks bid emptyBlock).predecessors
          = (getAt st1.builder.blocks bid emptyBlock).predecessors
              ++ [some c] ∧
        (∀ i, i < attrs.length →
          getAt (getAt (getAt st2.builder.blocks bid emptyBlock).arguments i
              emptyPhi).values
            (getAt st1.builder.blocks bid emptyBlock).predecessors.length none
            = (getAt attrs i nullAttr).Exp) ∧
        (getAt st2.builder.blocks c emptyBlock).terminator
          = some (SExpr.goto bid (getAt st1.builder.blocks bid
              emptyBlock).predecessors.length)) := by
  obtain ⟨hA1, hA2, hA3, hA4, hA5, hA6, hA7⟩ :=
    addPredecessor_spec st1.builder bid st1.builder.state.currentBB hbid
  constructor
  · intro hlen
    simp only [reduceGoto, hlk]
    rw [hA5]
    rw [if_neg hlen]
  · intro hlen
    have hbid2 : bid < (st1.builder.addPredecessor bid st1.builder.state.currentBB).1.blocks.length := by
      rw [hA2]; exact hbid
    have hlenW : 0 + attrs.length ≤ (getAt (st1.builder.addPredecessor bid st1.builder.state.currentBB).1.blocks bid emptyBlock).arguments.length := by
      rw [hA5, hlen]; omega
    obtain ⟨hW1, hW2, hW3, hW4, hW5, hW6, hW7, hW8⟩ :=
      writePhis_spec bid (st1.builder.addPredecessor bid st1.builder.state.currentBB).2 attrs (st1.builder.addPredecessor bid st1.builder.state.currentBB).1 0 hbid2 hlenW
    have hst : (writePhis (st1.builder.addPredecessor bid st1.builder.state.currentBB).1 bid (st1.builder.addPredecessor bid st1.builder.state.currentBB).2 0 attrs).state.currentBB = some c := by
      rw [hW2, hA3, hcur]
    have hEB := endBlock_some (writePhis (st1.builder.addPredecessor bid st1.builder.state.currentBB).1 bid (st1.builder.addPredecessor bid st1.builder.state.currentBB).2 0 attrs) (SExpr.goto bid (st1.builder.addPredecessor bid st1.builder.state.currentBB).2) c hst
    have hcb : c < (writePhis (st1.builder.addPredecessor bid st1.builder.state.currentBB).1 bid (st1.builder.addPredecessor bid st1.builder.state.currentBB).2 0 attrs).blocks.length := by
      rw [hW1, hA2]; exact hc
    constructor
    · simp only [reduceGoto, hlk]
      rw [hA5, if_pos hlen, hEB]
      simp
    · intro st2 a heq
      simp only [reduceGoto, hlk] at heq
      rw [hA5, if_pos hlen, hEB] at heq
      rw [Option.some.injEq, Prod.mk.injEq] at heq
      obtain ⟨h1, h2⟩ := heq
      subst h2
      subst h1
      refine ⟨by rw [hA1], rfl, rfl, ?_, ?_, ?_⟩
      · show (getAt (modifyAt (writePhis (st1.builder.addPredecessor bid st1.builder.state.currentBB).1 bid (st1.builder.addPredecessor bid st1.builder.state.currentBB).2 0 attrs).blocks c (fun blk => { blk with terminator := some (SExpr.goto bid (st1.builder.addPredecessor bid st1.builder.state.currentBB).2) })) bid emptyBlock).predecessors = _
        rw [(getAt_modifyAt_term _ _ _ _).1, hW4, hA4, hcur]
      · intro i hi
        have hv := hW8 i hi
        rw [Nat.zero_add] at hv
        rw [hA1] at hv
        show getAt (getAt (getAt (modifyAt (writePhis (st1.builder.addPredecessor bid st1.builder.state.currentBB).1 bid (st1.builder.addPredecessor bid st1.builder.state.currentBB).2 0 attrs).blocks c (fun blk => { blk with terminator := some (SExpr.goto bid (st1.builder.addPredecessor bid st1.builder.state.currentBB).2) })) bid emptyBlock).arguments i emptyPhi).values (getAt st1.builder.blocks bid emptyBlock).predecessors.length none = (getAt attrs i nullAttr).Exp
        rw [(getAt_modifyAt_term _ _ _ _).2]
        exact hv
      · show (getAt (modifyAt (writePhis (st1.builder.addPredecessor bid st1.builder.state.currentBB).1 bid (st1.builder.addPredecessor bid st1.builder.state.currentBB).2 0 attrs).blocks c (fun blk => { blk with terminator := some (SExpr.goto bid (st1.builder.addPredecessor bid st1.builder.state.currentBB).2) })) c emptyBlock).terminator = _
        rw [getAt_modifyAt_term_self _ _ _ hcb, hA1]

/-- Witness for C2: in a two-block graph whose current block is 0 and
whose goto target (original block 1, one phi) is mapped to new block 1,
`reduceGoto` with the single argument `lit 9` writes that argument into
the target's phi at the fresh predecessor index 0, records the edge, and
closes block 0 with the Goto terminator. -/
theorem reduceGoto_wires_phis_witness :
    getAt (getAt (getAt (⟨⟨[⟨[], [], 0, [], some (SExpr.goto 1 0)⟩, ⟨[⟨[some (SExpr.lit 9)]⟩], [some 0], 1, [], none⟩], ⟨none, true⟩, 0, none⟩, ⟨[], [], [none, some 1]⟩⟩ : RState).builder.blocks 1 emptyBlock).arguments 0 emptyPhi).values 0 none = some (SExpr.lit 9) ∧
    (getAt (⟨⟨[⟨[], [], 0, [], some (SExpr.goto 1 0)⟩, ⟨[⟨[some (SExpr.lit 9)]⟩], [some 0], 1, [], none⟩], ⟨none, true⟩, 0, none⟩, ⟨[], [], [none, some 1]⟩⟩ : RState).builder.blocks 1 emptyBlock).predecessors = [some 0] ∧
    (getAt (⟨⟨[⟨[], [], 0, [], some (SExpr.goto 1 0)⟩, ⟨[⟨[some (SExpr.lit 9)]⟩], [some 0], 1, [], none⟩], ⟨none, true⟩, 0, none⟩, ⟨[], [], [none, some 1]⟩⟩ : RState).builder.blocks 0 emptyBlock).terminator = some (SExpr.goto 1 0) ∧
    (⟨⟨[⟨[], [], 0, [], some (SExpr.goto 1 0)⟩, ⟨[⟨[some (SExpr.lit 9)]⟩], [some 0], 1, [], none⟩], ⟨none, true⟩, 0, none⟩, ⟨[], [], [none, some 1]⟩⟩ : RState).builder.state.currentBB = none := by
  have T := reduceGoto_wires_phis
    ⟨⟨[⟨[], [], 0, [], none⟩, ⟨[⟨[]⟩], [], 1, [], none⟩], ⟨some 0, true⟩, 0, none⟩, ⟨[], [], [none, some 1]⟩⟩
    ⟨⟨[⟨[], [], 0, [], none⟩, ⟨[⟨[]⟩], [], 1, [], none⟩], ⟨some 0, true⟩, 0, none⟩, ⟨[], [], [none, some 1]⟩⟩
    ⟨1, [some ⟨5⟩], 1⟩ [⟨some (SExpr.lit 9)⟩] 1 0
    (by decide) (by decide) (by decide) rfl
  have C := (T.2 rfl).2
    ⟨⟨[⟨[], [], 0, [], some (SExpr.goto 1 0)⟩, ⟨[⟨[some (SExpr.lit 9)]⟩], [some 0], 1, [], none⟩], ⟨none, true⟩, 0, none⟩, ⟨[], [], [none, some 1]⟩⟩
    ⟨some (SExpr.goto 1 0)⟩ (by decide)
  exact ⟨C.2.2.2.2.1 0 (by decide), C.2.2.2.1, C.2.2.2.2.2, C.2.2.1⟩

/-- Witness for C3: a scope already mapping block 0 to block 5 returns
the mapping unchanged; a scope with an unregistered block 0 creates
block 0 with the original's one phi argument and predecessor capacity 2,
and a second lookup returns the same block with the state unchanged. -/
theorem lookupBlock_lookup_or_create_witness :
    lookupBlock ⟨⟨[], ⟨none, true⟩, 0, none⟩, ⟨[], [], [some 5]⟩⟩
        (some ⟨0, [], 2⟩)
      = some (⟨⟨[], ⟨none, true⟩, 0, none⟩, ⟨[], [], [some 5]⟩⟩, some 5) ∧
    lookupBlock ⟨⟨[⟨[emptyPhi], [], 2, [], none⟩], ⟨none, true⟩, 0, none⟩,
        ⟨[], [], [some 0]⟩⟩ (some ⟨0, [some ⟨0⟩], 2⟩)
      = some (⟨⟨[⟨[emptyPhi], [], 2, [], none⟩], ⟨none, true⟩, 0, none⟩,
          ⟨[], [], [some 0]⟩⟩, some 0) :=
  ⟨(lookupBlock_lookup_or_create
      ⟨⟨[], ⟨none, true⟩, 0, none⟩, ⟨[], [], [some 5]⟩⟩ ⟨0, [], 2⟩
      (by decide)).1 5 rfl,
   ((lookupBlock_lookup_or_create
      ⟨⟨[], ⟨none, true⟩, 0, none⟩, ⟨[], [], [none]⟩⟩ ⟨0, [some ⟨0⟩], 2⟩
      (by decide)).2.2 rfl
      ⟨⟨[⟨[emptyPhi], [], 2, [], none⟩], ⟨none, true⟩, 0, none⟩,
        ⟨[], [], [some 0]⟩⟩ (some 0) (by decide)).2.2.2.2⟩

/-- Claim C6: in a lazy or type position whose node is not already a
fully-evaluated value, `traverse` does not recurse: it allocates a
future capturing the node, a clone of the current scope and the current
builder state with instruction emission disabled, enqueues it at the
back of the FIFO queue, and pushes the future itself as the position's
result attribute, leaving builder and scope untouched; in every other
case it recurses immediately through the normal dispatch mechanism. -/
theorem lazyTraverse_defers (sup : Machine → SExpr → TraversalKind → Machine)
    (m : Machine) (E : SExpr) (K : TraversalKind) :
    ((K = TraversalKind.lazy ∨ K = TraversalKind.type) → E.isValue = false →
      lazyTraverse sup m E K = { m with
        futures := m.futures ++ [⟨some E, some m.scope.clone,
          { m.builder.state with emitInstrs := false }, false⟩],
        futureQueue := m.futureQueue ++ [m.futures.length],
        attrStack := m.attrStack ++ [⟨some (SExpr.future m.futures.length)⟩] }) ∧
    (¬((K = TraversalKind.lazy ∨ K = TraversalKind.type) ∧ E.isValue = false) →
      lazyTraverse sup m E K = sup m E K) := by
  constructor
  · intro hK hV
    have hc : (K = TraversalKind.lazy ∨ K = TraversalKind.type)
        ∧ E.isValue = false := ⟨hK, hV⟩
    simp only [lazyTraverse, if_pos hc]
    rfl
  · intro hn
    simp only [lazyTraverse, if_neg hn]

/-- Witness for C6: deferring a non-value node in a lazy position on a
machine with one block open enqueues future 0 (emission turned off in
its snapshot, current block kept) and pushes the placeholder attribute;
in an eager position the machine is handed to the dispatch mechanism. -/
theorem lazyTraverse_defers_witness :
    lazyTraverse (fun m _ _ => m)
        ⟨⟨[], ⟨some 3, true⟩, 0, none⟩, emptyScope, [], [], []⟩
        SExpr.null TraversalKind.lazy
      = ⟨⟨[], ⟨some 3, true⟩, 0, none⟩, emptyScope,
          [⟨some (SExpr.future 0)⟩],
          [⟨some SExpr.null, some emptyScope, ⟨some 3, false⟩, false⟩], [0]⟩ ∧
    lazyTraverse (fun m _ _ => m)
        ⟨⟨[], ⟨some 3, true⟩, 0, none⟩, emptyScope, [], [], []⟩
        SExpr.null TraversalKind.tail
      = ⟨⟨[], ⟨some 3, true⟩, 0, none⟩, emptyScope, [], [], []⟩ :=
  ⟨(lazyTraverse_defers (fun m _ _ => m)
      ⟨⟨[], ⟨some 3, true⟩, 0, none⟩, emptyScope, [], [], []⟩
      SExpr.null TraversalKind.lazy).1 (Or.inl rfl) rfl,
   (lazyTraverse_defers (fun m _ _ => m)
      ⟨⟨[], ⟨some 3, true⟩, 0, none⟩, emptyScope, [], [], []⟩
      SExpr.null TraversalKind.tail).2 (by decide)⟩

/-- Claim C8: `evaluate` swaps in the future's saved scope and builder
state, runs the deferred traversal there (its effects on the future
queue persist), and on completion restores exactly the scope and builder
state that were current at force-time — whatever the traversal did and
whatever the creation-time snapshot was — and `finish` clears the
future's references to its captured node and scope clone. -/
theorem evaluate_restores_releases (m : Machine) (f : FutureObj)
    (trav : Machine → Option SExpr → Machine) :
    (evaluate m f trav).1.scope = m.scope ∧
    (evaluate m f trav).1.builder.state = m.builder.state ∧
    (evaluate m f trav).2.1.pendingExpr = none ∧
    (evaluate m f trav).2.1.scopePtr = none ∧
    (f.createCfg = false →
      (evaluate m f trav).1.futureQueue
        = (trav { m with scope := f.scopePtr.getD emptyScope, builder := { m.builder with state := f.bstate } } f.pendingExpr).futureQueue) := by
  refine ⟨rfl, rfl, rfl, rfl, ?_⟩
  intro h
  simp only [evaluate, h, Bool.false_eq_true, if_false]

/-- Witness for C8: forcing a future whose snapshot differs from the
current machine (different current block, emission off) restores the
force-time scope and state, releases the captured node and scope, and
keeps the queue produced by the deferred traversal. -/
theorem evaluate_restores_releases_witness :
    (evaluate ⟨⟨[], ⟨some 1, true⟩, 0, none⟩, ⟨[some nullAttr], [], []⟩,
        [], [], []⟩
      ⟨some (SExpr.lit 2), some emptyScope, ⟨none, false⟩, false⟩
      (fun mm _ => mm)).1.scope = ⟨[some nullAttr], [], []⟩ ∧
    (evaluate ⟨⟨[], ⟨some 1, true⟩, 0, none⟩, ⟨[some nullAttr], [], []⟩,
        [], [], []⟩
      ⟨some (SExpr.lit 2), some emptyScope, ⟨none, false⟩, false⟩
      (fun mm _ => mm)).1.builder.state = ⟨some 1, true⟩ ∧
    (evaluate ⟨⟨[], ⟨some 1, true⟩, 0, none⟩, ⟨[some nullAttr], [], []⟩,
        [], [], []⟩
      ⟨some (SExpr.lit 2), some emptyScope, ⟨none, false⟩, false⟩
      (fun mm _ => mm)).2.1.pendingExpr = none ∧
    (evaluate ⟨⟨[], ⟨some 1, true⟩, 0, none⟩, ⟨[some nullAttr], [], []⟩,
        [], [], []⟩
      ⟨some (SExpr.lit 2), some emptyScope, ⟨none, false⟩, false⟩
      (fun mm _ => mm)).2.1.scopePtr = none ∧
    (evaluate ⟨⟨[], ⟨some 1, true⟩, 0, none⟩, ⟨[some nullAttr], [], []⟩,
        [], [], []⟩
      ⟨some (SExpr.lit 2), some emptyScope, ⟨none, false⟩, false⟩
      (fun mm _ => mm)).1.futureQueue = [] := by
  have T := evaluate_restores_releases
    ⟨⟨[], ⟨some 1, true⟩, 0, none⟩, ⟨[some nullAttr], [], []⟩, [], [], []⟩
    ⟨some (SExpr.lit 2), some emptyScope, ⟨none, false⟩, false⟩
    (fun mm _ => mm)
  exact ⟨T.1, T.2.1, T.2.2.1, T.2.2.2.1, T.2.2.2.2 rfl⟩

theorem sizeL_append (a b : List FutTree) :
    sizeL (a ++ b) = sizeL a + sizeL b := by
  induction a with
  | nil => simp [sizeL]
  | cons x xs ih => simp [sizeL, ih]; omega

theorem idsL_append (a b : List FutTree) :
    idsL (a ++ b) = idsL a ++ idsL b := by
  induction a with
  | nil => simp [idsL]
  | cons x xs ih => simp [idsL, ih]

theorem drain_props : ∀ (n : Nat) (q : List FutTree), sizeL q = n →
    (drainFull q).2 = [] ∧
    (drainFull q).1 = q ++ kidsConcat (drainFull q).1 ∧
    ((drainFull q).1.map FutTree.fid).Perm (idsL q) := by
  intro n
  induction n using Nat.strong_induction_on with
  | _ n ih =>
    intro q hq
    match q with
    | [] =>
      refine ⟨?_, ?_, ?_⟩ <;> simp [drainFull, kidsConcat, idsL]
    | t :: q2 =>
      have hsz : sizeL (q2 ++ t.kids) < n := by
        subst hq
        cases t with
        | node i k =>
          simp [sizeL_append, sizeL, FutTree.size, FutTree.kids]
          omega
      obtain ⟨h1, h2, h3⟩ := ih _ hsz (q2 ++ t.kids) rfl
      have hd1 : (drainFull (t :: q2)).1 = t :: (drainFull (q2 ++ t.kids)).1 := by
        simp [drainFull]
      have hd2 : (drainFull (t :: q2)).2 = (drainFull (q2 ++ t.kids)).2 := by
        simp [drainFull]
      refine ⟨by rw [hd2]; exact h1, ?_, ?_⟩
      · rw [hd1]
        show t :: (drainFull (q2 ++ t.kids)).1
          = t :: (q2 ++ kidsConcat (t :: (drainFull (q2 ++ t.kids)).1))
        have hkc : kidsConcat (t :: (drainFull (q2 ++ t.kids)).1)
            = t.kids ++ kidsConcat (drainFull (q2 ++ t.kids)).1 := rfl
        rw [hkc]
        conv_lhs => rw [h2]
        simp [List.append_assoc]
      · rw [hd1]
        cases t with
        | node i k =>
          show (FutTree.node i k :: (drainFull (q2 ++ (FutTree.node i k).kids)).1).map FutTree.fid
              |>.Perm (idsL (FutTree.node i k :: q2))
          have hL : (FutTree.node i k :: (drainFull (q2 ++ (FutTree.node i k).kids)).1).map FutTree.fid
              = i :: ((drainFull (q2 ++ (FutTree.node i k).kids)).1.map FutTree.fid) := rfl
          have hR : idsL (FutTree.node i k :: q2) = (i :: idsL k) ++ idsL q2 := rfl
          rw [hL, hR]
          have h4 : ((drainFull (q2 ++ (FutTree.node i k).kids)).1.map FutTree.fid).Perm
              (idsL q2 ++ idsL k) := by
            have := h3
            rw [idsL_append] at this
            exact this
          calc i :: ((drainFull (q2 ++ (FutTree.node i k).kids)).1.map FutTree.fid)
              |>.Perm (i :: (idsL q2 ++ idsL k)) := h4.cons i
            _ |>.Perm ((i :: idsL k) ++ idsL q2) := by
                show (i :: (idsL q2 ++ idsL k)).Perm (i :: (idsL k ++ idsL q2))
                exact (List.perm_append_comm).cons i

/-- Claim C7: the drain loop of `traverseAll` exits only with an empty
queue; the futures are forced in exactly the order they were enqueued —
the forced sequence is the initial queue followed by the children of
each forced future in forcing order (FIFO) — and the multiset of forced
futures equals the multiset of all enqueued futures (initial ones and
ones enqueued while forcing others), so every future is forced exactly
once. -/
theorem traverseAll_drains_fifo_once (q : List FutTree) :
    (drainFull q).2 = [] ∧
    (drainFull q).1 = q ++ kidsConcat (drainFull q).1 ∧
    ((drainFull q).1.map FutTree.fid).Perm (idsL q) :=
  drain_props (sizeL q) q rfl

end Ohmu
